import Mathlib

/-!
Verification of the legal-ai repository (document structuring and
multi-round retrieval engine) against its natural-language specification.

The repository ships a Next.js frontend; the backend core described by the
specification (structure parsing, chunking, retrieval orchestration,
context aggregation, citation tracking) is not present as working code in
the source tree.  Frontend functions are embedded directly from the
TypeScript source; the missing core components are modelled from the
specification text, and each such definition is marked
`Modelled from the spec:` in its doc comment.
-/

namespace LegalAI

/-! ## Frontend data model (src/frontend/app/chat/[id]/page.tsx) -/

/-- The `DocumentStatus` interface from `chat/[id]/page.tsx`. -/
structure DocumentStatus where
  id : Int
  filename : String
  processing_status : String
  error_message : Option String
  is_ready : Bool
deriving Repr, DecidableEq

/-- The `CombinedStatus` interface from `chat/[id]/page.tsx`. -/
structure CombinedStatus where
  id : Int
  filename : String
  processing_status : String
  processing_step : String
  error_message : Option String
  is_ready : Bool
deriving Repr, DecidableEq

/-- `mapDbStatusToUi` from `chat/[id]/page.tsx` lines 52-73: maps the
database processing status string to the UI status string; unknown
statuses fall through to the default case `uploading`. -/
def mapDbStatusToUi (dbStatus : String) : String :=
  match dbStatus with
  | "pending" => "uploading"
  | "uploaded" => "uploading"
  | "extracting" => "processing"
  | "processing" => "processing"
  | "chunking" => "chunking"
  | "indexing" => "indexing"
  | "ready" => "ready"
  | "failed" => "failed"
  | _ => "uploading"

/-- `getStatusPriority` from `chat/[id]/page.tsx` lines 75-85. -/
def getStatusPriority (status : String) : Int :=
  match status with
  | "uploading" => 1
  | "processing" => 2
  | "chunking" => 3
  | "indexing" => 4
  | "ready" => 5
  | "failed" => 0
  | _ => 1

/-- `getProcessingStep` from `chat/[id]/page.tsx` lines 87-104. -/
def getProcessingStep (status filename : String) : String :=
  match status with
  | "uploading" => "Uploading " ++ filename ++ "..."
  | "processing" => "Extracting text from " ++ filename ++ "..."
  | "chunking" => "Breaking " ++ filename ++ " into meaningful sections..."
  | "indexing" => "Generating embeddings for " ++ filename ++ "..."
  | "ready" => filename ++ " is ready for chat!"
  | "failed" => "Failed to process " ++ filename
  | _ => "Processing " ++ filename ++ "..."

/-- The `for (const doc of documents)` loop of `getCombinedStatus`
(lines 124-132): scans all documents, replacing the current slowest
document whenever a strictly lower priority is found (so the first
document attaining the minimum wins). -/
def slowestDocLoop (docs : List DocumentStatus) (slowest : DocumentStatus)
    (lowest : Int) : DocumentStatus × Int :=
  match docs with
  | [] => (slowest, lowest)
  | d :: rest =>
      let p := getStatusPriority (mapDbStatusToUi d.processing_status)
      if p < lowest then slowestDocLoop rest d p
      else slowestDocLoop rest slowest lowest

/-- `getCombinedStatus` from `chat/[id]/page.tsx` lines 106-158. -/
def getCombinedStatus (documents : List DocumentStatus) : Option CombinedStatus :=
  match documents with
  | [] => none
  | first :: _ =>
    match documents.find? (fun doc => doc.processing_status == "failed") with
    | some failedDoc =>
        some { id := failedDoc.id
               filename := failedDoc.filename
               processing_status := "failed"
               processing_step := getProcessingStep "failed" failedDoc.filename
               error_message := failedDoc.error_message
               is_ready := false }
    | none =>
        let r := slowestDocLoop documents first
          (getStatusPriority (mapDbStatusToUi first.processing_status))
        let slowestDoc := r.1
        let uiStatus := mapDbStatusToUi slowestDoc.processing_status
        let totalCount := documents.length
        let completedCount := (documents.filter (fun doc => doc.is_ready)).length
        let processingStep :=
          if documents.length > 1 then
            if uiStatus == "ready" then
              "All " ++ toString totalCount ++ " documents are ready for chat!"
            else
              getProcessingStep uiStatus slowestDoc.filename ++ " (" ++
                toString completedCount ++ "/" ++ toString totalCount ++ " completed)"
          else getProcessingStep uiStatus slowestDoc.filename
        some { id := slowestDoc.id
               filename := if documents.length > 1 then
                   toString documents.length ++ " documents"
                 else slowestDoc.filename
               processing_status := uiStatus
               processing_step := processingStep
               error_message := slowestDoc.error_message
               is_ready := documents.all (fun doc => doc.is_ready) }

/-! ## Upload modal (src/frontend/app/components/DocumentUploadModal.tsx) -/

/-- The fields of a browser `File` object consulted by the upload modal:
`name`, MIME `type`, and `size` in bytes. -/
structure JsFile where
  name : String
  type : String
  size : Nat
deriving Repr, DecidableEq

/-- The `UploadedFile` interface (lines 6-12).  The `id` field
(`crypto.randomUUID()`) is nondeterministic and the `size` display string
uses floating-point `Math.log`; both are presentation-only and are not
modelled.  The underlying `file` and the fields derived from it by pure
string operations are kept. -/
structure UploadedFile where
  file : JsFile
  name : String
  type : String
deriving Repr, DecidableEq

/-- `getFileType` from `DocumentUploadModal.tsx` lines 34-42:
classifies by lower-cased filename extension. -/
def getFileType (file : JsFile) : String :=
  let extension := ((file.name.splitOn ".").getLastD "").toLower
  match extension with
  | "pdf" => "PDF"
  | "doc" => "Word"
  | "docx" => "Word"
  | "txt" => "Text"
  | _ => "Document"

/-- The `allowedTypes` list from `addFiles` (line 48). -/
def allowedTypes : List String :=
  ["application/pdf", "text/plain",
   "application/vnd.openxmlformats-officedocument.wordprocessingml.document",
   "application/msword"]

/-- Builds the `UploadedFile` record pushed by `addFiles` (lines 59-65). -/
def mkUploadedFile (file : JsFile) : UploadedFile :=
  { file := file, name := file.name, type := getFileType file }

/-- The `Array.from(files).forEach` body of `addFiles` (lines 47-68):
skips a file whose MIME type is not allowed, skips a file larger than
10MB, and otherwise pushes the corresponding `UploadedFile` in order. -/
def addFilesLoop (files : List JsFile) : List UploadedFile :=
  match files with
  | [] => []
  | file :: rest =>
    if !(allowedTypes.contains file.type) then addFilesLoop rest
    else if file.size > 10 * 1024 * 1024 then addFilesLoop rest
    else mkUploadedFile file :: addFilesLoop rest

/-- `addFiles` from `DocumentUploadModal.tsx` lines 44-71: the new state
is the previous state with the accepted files appended
(`setUploadedFiles(prev => [...prev, ...newFiles])`). -/
def addFiles (prev : List UploadedFile) (files : List JsFile) : List UploadedFile :=
  prev ++ addFilesLoop files

/-- The acceptance predicate of `addFiles`: allowed MIME type and size at
most `10 * 1024 * 1024` bytes (the code rejects strictly larger files). -/
def fileAccepted (file : JsFile) : Bool :=
  allowedTypes.contains file.type && file.size ≤ 10 * 1024 * 1024

/-! ## Message formatting
(src/frontend/app/components/ChatPage/MessageFormatter.tsx) -/

/-- The set of characters matched by the JavaScript regex class for
whitespace and removed by `String.prototype.trim` (the two sets
coincide: tab, LF, VT, FF, CR, space, NBSP, Unicode space separators,
line and paragraph separators, and the BOM). -/
def jsWhitespace (c : Char) : Bool :=
  c = ' ' || c = '\t' || c = '\n' || c = '\r' ||
  c = '\x0b' || c = '\x0c' || c = '\u00A0' || c = '\u1680' ||
  ('\u2000' ≤ c && c ≤ '\u200A') || c = '\u2028' || c = '\u2029' ||
  c = '\u202F' || c = '\u205F' || c = '\u3000' || c = '\uFEFF'

/-- Removes trailing whitespace (the tail half of `trim`). -/
def dropTrailing (l : List Char) : List Char :=
  (l.reverse.dropWhile jsWhitespace).reverse

/-- `line.trim()` as applied at `MessageFormatter.tsx` line 24. -/
def jsTrim (l : List Char) : List Char :=
  dropTrailing (l.dropWhile jsWhitespace)

/-- The test of the numbered-list regex (line 40): one or more digits,
a dot, then a whitespace character, anchored at the start. -/
def testNumbered (l : List Char) : Bool :=
  match l with
  | c :: _ =>
      c.isDigit &&
      (match l.dropWhile Char.isDigit with
       | '.' :: d :: _ => jsWhitespace d
       | _ => false)
  | [] => false

/-- The test of the bullet regex (line 51): the line starts with a dash
or asterisk followed by a whitespace character. -/
def testBullet (l : List Char) : Bool :=
  match l with
  | c :: d :: _ => (c = '-' || c = '*') && jsWhitespace d
  | _ => false

/-- The test of the sub-bullet regex (line 60): at least two leading
whitespace characters, then a dash or asterisk, then whitespace.  The
whitespace run must stop exactly at the marker character, so the match
succeeds iff the line has two or more leading whitespace characters and
the remainder after the whitespace run passes the bullet test. -/
def testSubBullet (l : List Char) : Bool :=
  2 ≤ (l.takeWhile jsWhitespace).length && testBullet (l.dropWhile jsWhitespace)

/-- `haystack` contains `pat` as a contiguous run (the `includes` test). -/
def containsRun (pat : List Char) (haystack : List Char) : Bool :=
  match haystack with
  | [] => pat.isEmpty
  | _ :: rest => pat.isPrefixOf haystack || containsRun pat rest

/-- The test of the header branch (line 32): ends with a colon, has
length greater than 3, and does not contain `http`. -/
def testHeader (l : List Char) : Bool :=
  l.getLast? == some ':' && l.length > 3 && !(containsRun ("http".toList) l)

/-- The branch a formatted line is rendered with, one constructor per
branch of the `if`/`else if` cascade of `formatAssistantMessage`. -/
inductive LineKind where
  | blank
  | header
  | numbered
  | bullet
  | subBullet
  | bold
  | para
deriving Repr, DecidableEq

/-- The branch-selection cascade of `formatAssistantMessage`
(`MessageFormatter.tsx` lines 26-92), applied to the already-trimmed
line: blank, header, numbered list, bullet, sub-bullet, bold text, then
plain paragraph, in source order. -/
def classifyLine (line : List Char) : LineKind :=
  if line.isEmpty then .blank
  else if testHeader line then .header
  else if testNumbered line then .numbered
  else if testBullet line then .bullet
  else if testSubBullet line then .subBullet
  else if containsRun ['*', '*'] line then .bold
  else .para

/-- `formatAssistantMessage` (lines 18-96) as branch selection: the text
is split on newlines, each line is trimmed (line 24), and the trimmed
line is classified by the branch cascade. -/
def formatAssistantKinds (text : List Char) : List LineKind :=
  (text.splitOn '\n').map (fun line => classifyLine (jsTrim line))

/-! ## Theorems: upload modal (C9) -/

theorem addFilesLoop_eq_filter (files : List JsFile) :
    addFilesLoop files = (files.filter fileAccepted).map mkUploadedFile := by
  induction files with
  | nil => rfl
  | cons f rest ih =>
    by_cases h1 : allowedTypes.contains f.type
    · have hm : f.type ∈ allowedTypes := by simpa using h1
      by_cases h2 : f.size ≤ 10 * 1024 * 1024
      · have ha : fileAccepted f = true := by
          simp [fileAccepted, hm, h2]
        have hlt : ¬ (f.size > 10 * 1024 * 1024) := by omega
        simp [addFilesLoop, h1, hm, hlt, List.filter_cons, ha, ih]
      · have ha : fileAccepted f = false := by
          simp [fileAccepted, h2]
        have hlt : f.size > 10 * 1024 * 1024 := by omega
        simp [addFilesLoop, h1, hm, hlt, List.filter_cons, ha, ih]
    · have hm : f.type ∉ allowedTypes := by simpa using h1
      have ha : fileAccepted f = false := by
        simp [fileAccepted, hm]
      simp [addFilesLoop, h1, hm, List.filter_cons, ha, ih]

/-- C9: a file passed to `addFiles` is appended to the uploaded-files
state iff its MIME type is one of the four allowed types and its size is
at most `10 * 1024 * 1024` bytes; accepted files are appended after all
previously added files in their original relative order, and rejected
files leave the state unchanged: the new state is exactly the previous
state followed by the accepted files, in order. -/
theorem C9_addFiles_spec (prev : List UploadedFile) (files : List JsFile) :
    addFiles prev files = prev ++ (files.filter fileAccepted).map mkUploadedFile ∧
    ∀ f : JsFile, fileAccepted f =
      (allowedTypes.contains f.type && f.size ≤ 10 * 1024 * 1024) := by
  constructor
  · unfold addFiles
    rw [addFilesLoop_eq_filter]
  · intro f
    rfl

/-! ## Theorems: message formatting (C10) -/

theorem dropWhile_head_not {α : Type} (p : α → Bool) (l : List α) :
    ∀ c t, l.dropWhile p = c :: t → p c = false := by
  induction l with
  | nil => intro c t h; cases h
  | cons x xs ih =>
    intro c t h
    rw [List.dropWhile_cons] at h
    by_cases hx : p x
    · rw [if_pos hx] at h
      exact ih c t h
    · rw [if_neg hx] at h
      cases h
      simpa using hx

theorem dropWhile_append_single {α : Type} (p : α → Bool) (xs : List α) (c : α) :
    (xs ++ [c]).dropWhile p =
      if (xs.dropWhile p).isEmpty then (if p c then [] else [c])
      else xs.dropWhile p ++ [c] := by
  induction xs with
  | nil => simp [List.dropWhile_cons]
  | cons x xs ih =>
    rw [List.cons_append, List.dropWhile_cons, List.dropWhile_cons]
    by_cases hx : p x
    · simpa [hx] using ih
    · simp [hx]

theorem dropTrailing_head (l : List Char) :
    dropTrailing l = [] ∨ (dropTrailing l).head? = l.head? := by
  cases l with
  | nil => left; rfl
  | cons c t =>
    unfold dropTrailing
    rw [List.reverse_cons, dropWhile_append_single]
    by_cases he : (t.reverse.dropWhile jsWhitespace).isEmpty
    · rw [if_pos he]
      by_cases hc : jsWhitespace c
      · left; simp [hc]
      · right; simp [hc]
    · rw [if_neg he]
      right
      simp

theorem jsTrim_head (l : List Char) (c : Char) (t : List Char)
    (h : jsTrim l = c :: t) : jsWhitespace c = false := by
  unfold jsTrim at h
  rcases dropTrailing_head (l.dropWhile jsWhitespace) with h0 | h0
  · rw [h0] at h
    cases h
  · rw [h] at h0
    cases hd : l.dropWhile jsWhitespace with
    | nil => rw [hd] at h0; simp at h0
    | cons d t2 =>
      rw [hd] at h0
      simp only [List.head?_cons, Option.some.injEq] at h0
      subst h0
      exact dropWhile_head_not jsWhitespace l _ _ hd

theorem trimmed_not_subBullet (l : List Char) :
    testSubBullet (jsTrim l) = false := by
  cases hd : jsTrim l with
  | nil => rfl
  | cons c t =>
    have hc := jsTrim_head l c t hd
    simp [testSubBullet, List.takeWhile_cons, hc]

theorem classify_trimmed_ne_subBullet (l : List Char) :
    classifyLine (jsTrim l) ≠ LineKind.subBullet := by
  have h := trimmed_not_subBullet l
  unfold classifyLine
  split
  · intro hcon; cases hcon
  split
  · intro hcon; cases hcon
  split
  · intro hcon; cases hcon
  split
  · intro hcon; cases hcon
  split
  · rename_i hsb
    rw [h] at hsb
    cases hsb
  split
  · intro hcon; cases hcon
  · intro hcon; cases hcon

/-- C10 counterexample: the line consisting of two spaces, a dash, a
space and `abc:` matches the sub-bullet pattern of the source (two or
more leading whitespace characters, a marker, whitespace), yet
`formatAssistantMessage` renders it with the header branch — its trimmed
form ends in a colon — not with the top-level bullet branch, refuting
the claim that indented sub-bullets are always rendered by the bullet
branch. -/
theorem C10_counterexample :
    testSubBullet (String.toList "  - abc:") = true ∧
    formatAssistantKinds (String.toList "  - abc:") = [LineKind.header] ∧
    classifyLine (jsTrim (String.toList "  - abc:")) ≠ LineKind.bullet := by
  decide

/-- C10 (amended): the sub-bullet branch of `formatAssistantMessage` is
unreachable for every input string — each line is trimmed before
classification, and a trimmed line never begins with whitespace, so the
sub-bullet pattern never matches.  An indented sub-bullet line is
classified on its trimmed text by the earlier branches: whenever the
trimmed text still matches the bullet pattern and is not captured by the
earlier header branch, it is rendered by the top-level bullet branch. -/
theorem C10_subBullet_unreachable :
    (∀ text : List Char, LineKind.subBullet ∉ formatAssistantKinds text) ∧
    (∀ raw : List Char, testSubBullet raw = true →
      testBullet (jsTrim raw) = true → testHeader (jsTrim raw) = false →
      classifyLine (jsTrim raw) = LineKind.bullet) := by
  constructor
  · intro text hmem
    unfold formatAssistantKinds at hmem
    rw [List.mem_map] at hmem
    obtain ⟨line, _, hcl⟩ := hmem
    exact classify_trimmed_ne_subBullet line hcl
  · intro raw _ hb hh
    cases hd : jsTrim raw with
    | nil => rw [hd] at hb; cases hb
    | cons c t =>
      rw [hd] at hb hh
      cases t with
      | nil => cases hb
      | cons d t2 =>
        have hcd : (c = '-' || c = '*') = true := by
          simp only [testBullet, Bool.and_eq_true] at hb
          exact hb.1
        have hdig : c.isDigit = false := by
          rcases Bool.or_eq_true _ _ |>.mp hcd with h | h
          · rw [decide_eq_true_eq] at h; subst h; rfl
          · rw [decide_eq_true_eq] at h; subst h; rfl
        have hnum : testNumbered (c :: d :: t2) = false := by
          simp [testNumbered, hdig]
        have hne : (c :: d :: t2).isEmpty = false := rfl
        simp [classifyLine, hne, hh, hnum, hb]

/-! ## Theorems: combined document status (C8) -/

theorem slowestDocLoop_spec (docs : List DocumentStatus) :
    ∀ (s : DocumentStatus) (low : Int),
      low = getStatusPriority (mapDbStatusToUi s.processing_status) →
      ((slowestDocLoop docs s low).1 = s ∨ (slowestDocLoop docs s low).1 ∈ docs) ∧
      (slowestDocLoop docs s low).2 =
        getStatusPriority (mapDbStatusToUi (slowestDocLoop docs s low).1.processing_status) ∧
      (slowestDocLoop docs s low).2 ≤ low ∧
      ∀ d ∈ docs, (slowestDocLoop docs s low).2 ≤
        getStatusPriority (mapDbStatusToUi d.processing_status) := by
  induction docs with
  | nil =>
    intro s low hl
    subst hl
    exact ⟨Or.inl rfl, rfl, le_refl _, by intro d hd; cases hd⟩
  | cons d rest ih =>
    intro s low hl
    by_cases hp : getStatusPriority (mapDbStatusToUi d.processing_status) < low
    · have hun : slowestDocLoop (d :: rest) s low =
          slowestDocLoop rest d (getStatusPriority (mapDbStatusToUi d.processing_status)) := by
        simp [slowestDocLoop, hp]
      obtain ⟨m1, m2, m3, m4⟩ := ih d _ rfl
      rw [hun]
      refine ⟨?_, m2, ?_, ?_⟩
      · rcases m1 with h | h
        · exact Or.inr (by rw [h]; exact List.mem_cons_self d rest)
        · exact Or.inr (List.mem_cons_of_mem d h)
      · exact le_trans m3 (le_of_lt hp)
      · intro e he
        rcases List.mem_cons.mp he with h | h
        · rw [h]; exact m3
        · exact m4 e h
    · have hun : slowestDocLoop (d :: rest) s low = slowestDocLoop rest s low := by
        simp [slowestDocLoop, hp]
      obtain ⟨m1, m2, m3, m4⟩ := ih s low hl
      rw [hun]
      refine ⟨?_, m2, m3, ?_⟩
      · rcases m1 with h | h
        · exact Or.inl h
        · exact Or.inr (List.mem_cons_of_mem d h)
      · intro e he
        rcases List.mem_cons.mp he with h | h
        · rw [h]; exact le_trans m3 (not_lt.mp hp)
        · exact m4 e h

/-- C8: `getCombinedStatus` returns `none` iff the input list is empty;
if some document has database status `failed`, the combined status has
`processing_status = "failed"` and `is_ready = false` regardless of the
other documents; otherwise the combined `processing_status` is the
UI-mapped status of a furthest-behind document (one of minimal status
priority over the whole list), and `is_ready` is `true` iff every input
document is ready. -/
theorem C8_getCombinedStatus_spec (docs : List DocumentStatus) :
    (getCombinedStatus docs = none ↔ docs = []) ∧
    (∀ f ∈ docs, f.processing_status = "failed" →
      ∃ c, getCombinedStatus docs = some c ∧ c.processing_status = "failed" ∧
        c.is_ready = false) ∧
    ((∀ d ∈ docs, d.processing_status ≠ "failed") → docs ≠ [] →
      ∃ c s, getCombinedStatus docs = some c ∧ s ∈ docs ∧
        c.processing_status = mapDbStatusToUi s.processing_status ∧
        (∀ d ∈ docs, getStatusPriority (mapDbStatusToUi s.processing_status) ≤
          getStatusPriority (mapDbStatusToUi d.processing_status)) ∧
        (c.is_ready = true ↔ ∀ d ∈ docs, d.is_ready = true)) := by
  refine ⟨?_, ?_, ?_⟩
  · cases docs with
    | nil => simp [getCombinedStatus]
    | cons a l =>
      simp only [getCombinedStatus]
      constructor
      · intro h
        cases hf : (a :: l).find? (fun doc => doc.processing_status == "failed") with
        | some fd => rw [hf] at h; cases h
        | none => rw [hf] at h; cases h
      · intro h; cases h
  · intro f hf hfail
    cases docs with
    | nil => cases hf
    | cons a l =>
      have hsome : ((a :: l).find? (fun doc => doc.processing_status == "failed")).isSome := by
        rw [List.find?_isSome]
        exact ⟨f, hf, by simp [hfail]⟩
      cases hfd : (a :: l).find? (fun doc => doc.processing_status == "failed") with
      | none => rw [hfd] at hsome; cases hsome
      | some fd =>
        have heq : getCombinedStatus (a :: l) = some
            { id := fd.id, filename := fd.filename, processing_status := "failed",
              processing_step := getProcessingStep "failed" fd.filename,
              error_message := fd.error_message, is_ready := false } := by
          simp only [getCombinedStatus, hfd]
        exact ⟨_, heq, rfl, rfl⟩
  · intro hnf hne
    cases docs with
    | nil => exact absurd rfl hne
    | cons a l =>
      have hfd : (a :: l).find? (fun doc => doc.processing_status == "failed") = none := by
        rw [List.find?_eq_none]
        intro x hx
        simp only [beq_iff_eq]
        exact hnf x hx
      obtain ⟨m1, m2, m3, m4⟩ := slowestDocLoop_spec (a :: l) a
        (getStatusPriority (mapDbStatusToUi a.processing_status)) rfl
      cases hg : getCombinedStatus (a :: l) with
      | none =>
        simp only [getCombinedStatus, hfd] at hg
        cases hg
      | some c =>
        have hg2 := hg
        simp only [getCombinedStatus, hfd, Option.some.injEq] at hg2
        subst hg2
        refine ⟨_, (slowestDocLoop (a :: l) a
          (getStatusPriority (mapDbStatusToUi a.processing_status))).1, rfl, ?_, rfl, ?_, ?_⟩
        · rcases m1 with h | h
          · rw [h]; exact List.mem_cons_self a l
          · exact h
        · intro d hd
          rw [← m2]
          exact m4 d hd
        · simp only [List.all_eq_true]

/-- Witness for C8 at a concrete two-document list (one chunking, one
ready). -/
theorem C8_getCombinedStatus_spec_witness :
    ∃ c s, getCombinedStatus
        [⟨1, "a.pdf", "chunking", none, false⟩, ⟨2, "b.pdf", "ready", none, true⟩] = some c ∧
      s ∈ [(⟨1, "a.pdf", "chunking", none, false⟩ : DocumentStatus),
           ⟨2, "b.pdf", "ready", none, true⟩] ∧
      c.processing_status = mapDbStatusToUi s.processing_status ∧
      (∀ d ∈ [(⟨1, "a.pdf", "chunking", none, false⟩ : DocumentStatus),
              ⟨2, "b.pdf", "ready", none, true⟩],
        getStatusPriority (mapDbStatusToUi s.processing_status) ≤
          getStatusPriority (mapDbStatusToUi d.processing_status)) ∧
      (c.is_ready = true ↔
        ∀ d ∈ [(⟨1, "a.pdf", "chunking", none, false⟩ : DocumentStatus),
               ⟨2, "b.pdf", "ready", none, true⟩], d.is_ready = true) :=
  (C8_getCombinedStatus_spec _).2.2 (by decide) (by decide)

/-- Witness for the amended C10 theorem at concrete inputs: a text whose
lines include an indented sub-bullet, and the indented sub-bullet line
rendered by the top-level bullet branch. -/
theorem C10_subBullet_unreachable_witness :
    LineKind.subBullet ∉ formatAssistantKinds (String.toList "a\n  - x") ∧
    classifyLine (jsTrim (String.toList "  - x")) = LineKind.bullet :=
  ⟨C10_subBullet_unreachable.1 (String.toList "a\n  - x"),
   C10_subBullet_unreachable.2 (String.toList "  - x")
     (by decide) (by decide) (by decide)⟩

/-! ## Spec-modelled core: document lifecycle (C4) -/

/-- Modelled from the spec: the document lifecycle status enum of
section 3 (`pending`, `extracting`, `chunking`, `indexing`, `ready`,
`failed`); the ingestion state machine that writes it is backend code
absent from the source tree (the backend directory holds only a
Dockerfile and a requirements file). -/
inductive DocStatus where
  | pending
  | extracting
  | chunking
  | indexing
  | ready
  | failed
deriving Repr, DecidableEq, Fintype

/-- Modelled from the spec: the state-transition function of the design
notes — the happy path advances `pending` to `extracting` to `chunking`
to `indexing` to `ready`; any in-progress status may move to `failed`
(the section 7 failure taxonomy allows fatal failures at every stage);
every other transition is rejected. -/
def validTransition (s t : DocStatus) : Bool :=
  match s, t with
  | .pending, .extracting => true
  | .extracting, .chunking => true
  | .chunking, .indexing => true
  | .indexing, .ready => true
  | .pending, .failed => true
  | .extracting, .failed => true
  | .chunking, .failed => true
  | .indexing, .failed => true
  | _, _ => false

/-- Modelled from the spec: attempting a status change either moves to
the requested status or rejects the request. -/
def applyTransition (s t : DocStatus) : Option DocStatus :=
  if validTransition s t then some t else none

/-- C4: the processing status is one of exactly the six lifecycle
values; the state-transition function accepts exactly the transitions of
the lifecycle chain (with `failed` reachable from any in-progress
status) and rejects every other requested change, and the two terminal
statuses `ready` and `failed` admit no outgoing transition. -/
theorem C4_status_enum_transitions :
    (∀ s : DocStatus, s = .pending ∨ s = .extracting ∨ s = .chunking ∨
      s = .indexing ∨ s = .ready ∨ s = .failed) ∧
    (∀ s t u : DocStatus, applyTransition s t = some u →
      u = t ∧ validTransition s t = true) ∧
    (∀ s t : DocStatus, validTransition s t = false → applyTransition s t = none) ∧
    (∀ s t : DocStatus, validTransition s t = true ↔
      ((s, t) ∈ [(DocStatus.pending, DocStatus.extracting),
                 (DocStatus.extracting, DocStatus.chunking),
                 (DocStatus.chunking, DocStatus.indexing),
                 (DocStatus.indexing, DocStatus.ready)] ∨
        (s ≠ .ready ∧ s ≠ .failed ∧ t = .failed))) ∧
    (∀ t : DocStatus, validTransition .ready t = false ∧
      validTransition .failed t = false) := by
  refine ⟨?_, ?_, ?_, ?_, ?_⟩ <;> decide

/-- Witness for C4: the out-of-order request `pending` to `ready` is
rejected. -/
theorem C4_status_enum_transitions_witness :
    applyTransition DocStatus.pending DocStatus.ready = none :=
  C4_status_enum_transitions.2.2.1 DocStatus.pending DocStatus.ready (by decide)

/-! ## Spec-modelled core: Legal Chunker (C1, C7) -/

/-- Sentence-ending punctuation used by the sentence segmenter. -/
def isSentenceEnd (c : Char) : Bool :=
  c = '.' || c = '!' || c = '?'

/-- Modelled from the spec: the sentence segmenter the Legal Chunker
splits at (section 4.4, "split only at sentence-boundary positions");
the segmenter itself is an ingestion-pipeline component absent from the
source tree.  A sentence ends right after sentence-ending punctuation;
trailing text without such punctuation forms a final sentence, so the
segments always concatenate back to the input. -/
def segmentSentencesAux (acc : List Char) : List Char → List (List Char)
  | [] => if acc.isEmpty then [] else [acc.reverse]
  | c :: rest =>
      if isSentenceEnd c then (c :: acc).reverse :: segmentSentencesAux [] rest
      else segmentSentencesAux (c :: acc) rest

/-- Splits document text into sentences. -/
def segmentSentences (text : List Char) : List (List Char) :=
  segmentSentencesAux [] text

/-- Modelled from the spec: token grouping for token counts — a token is
a maximal run of non-space characters together with the spaces that
follow it, so token groups concatenate back to the text and token-count
windows and overlaps can be taken at token boundaries. -/
def chopTokensAux (cur : List Char) : List Char → List (List Char)
  | [] => if cur.isEmpty then [] else [cur.reverse]
  | c :: rest =>
      if !(c = ' ') && cur.head? == some ' ' then
        cur.reverse :: chopTokensAux [c] rest
      else chopTokensAux (c :: cur) rest

/-- Splits text into token groups. -/
def chopTokens (s : List Char) : List (List Char) :=
  chopTokensAux [] s

/-- Token count of a piece of text. -/
def countTokens (s : List Char) : Nat :=
  (chopTokens s).length

/-- The trailing `n` tokens of a text, clamped to the whole text when it
holds fewer than `n` tokens (spec section 4.4 edge case). -/
def trailingTokens (n : Nat) (s : List Char) : List Char :=
  ((chopTokens s).drop ((chopTokens s).length - n)).flatten

/-- Modelled from the spec: the greedy sentence-window loop of the Legal
Chunker (section 4.4) — a chunk closes when adding the next sentence
would exceed the token window, unless the chunk currently holds zero
sentences (an oversized single sentence becomes its own chunk).  `cur`
holds the sentences of the open chunk in reverse; `curTok` its token
count. -/
def groupSentencesAux (window : Nat) (cur : List (List Char)) (curTok : Nat) :
    List (List Char) → List (List (List Char))
  | [] => if cur.isEmpty then [] else [cur.reverse]
  | s :: rest =>
      if cur.isEmpty then groupSentencesAux window [s] (countTokens s) rest
      else if curTok + countTokens s > window then
        cur.reverse :: groupSentencesAux window [s] (countTokens s) rest
      else groupSentencesAux window (s :: cur) (curTok + countTokens s) rest

/-- Groups a sentence list into chunks of at most `window` tokens
(except oversized single sentences). -/
def groupSentences (window : Nat) (sents : List (List Char)) :
    List (List (List Char)) :=
  groupSentencesAux window [] 0 sents

/-- Modelled from the spec: a Chunk (section 3 data model) — section
path, zero-based index in source order, the overlap text repeated from
the previous chunk (marked so downstream dedup can discount it), and the
core text owned by this chunk. -/
structure Chunk where
  sectionPath : List String
  index : Nat
  overlap : List Char
  core : List Char
deriving Repr, DecidableEq

/-- The text a chunk carries: its marked overlap followed by its core. -/
def chunkFullText (c : Chunk) : List Char :=
  c.overlap ++ c.core

/-- Modelled from the spec: builds the ordered Chunk sequence from the
grouped sentences — each chunk after the first repeats the trailing
overlap tokens of the previous chunk (section 4.4), marked as overlap. -/
def legalChunkAux (path : List String) (overlapN : Nat) (i : Nat)
    (prev : Option (List Char)) : List (List (List Char)) → List Chunk
  | [] => []
  | g :: rest =>
      let core := g.flatten
      let ov := match prev with
        | none => []
        | some pc => trailingTokens overlapN pc
      { sectionPath := path, index := i, overlap := ov, core := core } ::
        legalChunkAux path overlapN (i + 1) (some core) rest

/-- Modelled from the spec: the Legal Chunker on one section's text —
segment into sentences, group greedily into token windows, and attach
section path, index and overlap. -/
def legalChunk (window overlapN : Nat) (path : List String)
    (text : List Char) : List Chunk :=
  legalChunkAux path overlapN 0 none (groupSentences window (segmentSentences text))

/-- The consecutive character spans of the chunk cores, as
(start, stop) offsets into the section text. -/
def coreSpans (pos : Nat) : List Chunk → List (Nat × Nat)
  | [] => []
  | c :: rest => (pos, pos + c.core.length) :: coreSpans (pos + c.core.length) rest

/-! ## Theorems: Legal Chunker reconstruction and determinism (C1, C7) -/

theorem segmentSentencesAux_flatten (l : List Char) :
    ∀ acc : List Char, (segmentSentencesAux acc l).flatten = acc.reverse ++ l := by
  induction l with
  | nil =>
    intro acc
    by_cases h : acc.isEmpty
    · have : acc = [] := by simpa [List.isEmpty_iff] using h
      simp [segmentSentencesAux, h, this]
    · simp [segmentSentencesAux, h]
  | cons c rest ih =>
    intro acc
    by_cases h : isSentenceEnd c
    · simp [segmentSentencesAux, h, ih]
    · simp [segmentSentencesAux, h, ih]

theorem segmentSentences_flatten (text : List Char) :
    (segmentSentences text).flatten = text := by
  simpa using segmentSentencesAux_flatten text []

theorem groupSentencesAux_flatten (sents : List (List Char)) :
    ∀ (window curTok : Nat) (cur : List (List Char)),
      (groupSentencesAux window cur curTok sents).flatten = cur.reverse ++ sents := by
  induction sents with
  | nil =>
    intro window curTok cur
    by_cases h : cur.isEmpty
    · have : cur = [] := by simpa [List.isEmpty_iff] using h
      simp [groupSentencesAux, h, this]
    · simp [groupSentencesAux, h]
  | cons s rest ih =>
    intro window curTok cur
    by_cases h : cur.isEmpty
    · have hc : cur = [] := by simpa [List.isEmpty_iff] using h
      simp [groupSentencesAux, h, hc, ih]
    · by_cases hw : curTok + countTokens s > window
      · simp [groupSentencesAux, h, hw, ih]
      · simp [groupSentencesAux, h, hw, ih]

theorem groupSentences_flatten (window : Nat) (sents : List (List Char)) :
    (groupSentences window sents).flatten = sents := by
  simpa using groupSentencesAux_flatten sents window 0 []

theorem legalChunkAux_cores (path : List String) (overlapN : Nat) :
    ∀ (gs : List (List (List Char))) (i : Nat) (prev : Option (List Char)),
      (legalChunkAux path overlapN i prev gs).map Chunk.core = gs.map List.flatten := by
  intro gs
  induction gs with
  | nil => intro i prev; rfl
  | cons g rest ih =>
    intro i prev
    simp [legalChunkAux, ih]

theorem legalChunkAux_path (path : List String) (overlapN : Nat) :
    ∀ (gs : List (List (List Char))) (i : Nat) (prev : Option (List Char)),
      ∀ c ∈ legalChunkAux path overlapN i prev gs, c.sectionPath = path := by
  intro gs
  induction gs with
  | nil => intro i prev c hc; cases hc
  | cons g rest ih =>
    intro i prev c hc
    rcases List.mem_cons.mp hc with h | h
    · rw [h]
    · exact ih (i + 1) (some g.flatten) c h

theorem legalChunkAux_indices (path : List String) (overlapN : Nat) :
    ∀ (gs : List (List (List Char))) (i : Nat) (prev : Option (List Char)),
      (legalChunkAux path overlapN i prev gs).map Chunk.index =
        List.range' i gs.length := by
  intro gs
  induction gs with
  | nil => intro i prev; rfl
  | cons g rest ih =>
    intro i prev
    simp [legalChunkAux, ih, List.range'_succ]

theorem legalChunkAux_length (path : List String) (overlapN : Nat) :
    ∀ (gs : List (List (List Char))) (i : Nat) (prev : Option (List Char)),
      (legalChunkAux path overlapN i prev gs).length = gs.length := by
  intro gs
  induction gs with
  | nil => intro i prev; rfl
  | cons g rest ih =>
    intro i prev
    simp [legalChunkAux, ih]

theorem coreSpans_chain (cs : List Chunk) :
    ∀ pos : Nat, List.Chain' (fun a b : Nat × Nat => a.2 = b.1) (coreSpans pos cs) := by
  induction cs with
  | nil => intro pos; exact List.chain'_nil
  | cons c rest ih =>
    intro pos
    cases rest with
    | nil => exact List.chain'_singleton _
    | cons d tail =>
      exact List.Chain'.cons rfl (ih (pos + c.core.length))

theorem coreSpans_extract (cs : List Chunk) :
    ∀ (pos : Nat) (t : List Char), (cs.map Chunk.core).flatten = t.drop pos →
      ∀ p ∈ cs.zip (coreSpans pos cs),
        (t.drop p.2.1).take (p.2.2 - p.2.1) = p.1.core := by
  induction cs with
  | nil => intro pos t _ p hp; cases hp
  | cons c rest ih =>
    intro pos t hflat p hp
    have hdrop : t.drop pos = c.core ++ ((rest.map Chunk.core).flatten) := by
      rw [← hflat]; simp
    rcases List.mem_cons.mp hp with h | h
    · subst h
      simp only [hdrop]
      have : pos + c.core.length - pos = c.core.length := by omega
      rw [this, List.take_left]
    · refine ih (pos + c.core.length) t ?_ p h
      rw [← List.drop_drop, hdrop]
      exact (List.drop_left c.core ((rest.map Chunk.core).flatten)).symm

/-- C1: for every section text, the chunk cores (each chunk's text minus
its declared overlap region) concatenate exactly back to the section
text — no character gap and no duplicated non-overlap character, the
consecutive core character spans tile the text (each chunk's span
extracts exactly its core), and every chunk carries exactly the one
section path of the section it was chunked from. -/
theorem C1_chunks_reconstruct (window overlapN : Nat) (path : List String)
    (text : List Char) :
    ((legalChunk window overlapN path text).map Chunk.core).flatten = text ∧
    (∀ c ∈ legalChunk window overlapN path text, c.sectionPath = path) ∧
    (∀ c ∈ legalChunk window overlapN path text,
      (chunkFullText c).drop c.overlap.length = c.core) ∧
    List.Chain' (fun a b : Nat × Nat => a.2 = b.1)
      (coreSpans 0 (legalChunk window overlapN path text)) ∧
    (∀ p ∈ (legalChunk window overlapN path text).zip
        (coreSpans 0 (legalChunk window overlapN path text)),
      (text.drop p.2.1).take (p.2.2 - p.2.1) = p.1.core) := by
  have hflat : ((legalChunk window overlapN path text).map Chunk.core).flatten = text := by
    unfold legalChunk
    rw [legalChunkAux_cores]
    calc ((groupSentences window (segmentSentences text)).map List.flatten).flatten
        = (groupSentences window (segmentSentences text)).flatten.flatten := by
          rw [List.flatten_flatten]
      _ = (segmentSentences text).flatten := by rw [groupSentences_flatten]
      _ = text := segmentSentences_flatten text
  refine ⟨hflat, ?_, ?_, coreSpans_chain _ 0, ?_⟩
  · exact legalChunkAux_path path overlapN _ 0 none
  · intro c _
    simp [chunkFullText]
  · exact coreSpans_extract _ 0 text (by simpa using hflat)

/-- C7: chunking is deterministic and idempotent — identical input text
yields identical chunk boundaries (character spans), identical chunk
count, and the chunk indices are exactly the zero-based positions in
source order. -/
theorem C7_chunking_deterministic (window overlapN : Nat) (path : List String)
    (t1 t2 : List Char) (h : t1 = t2) :
    legalChunk window overlapN path t1 = legalChunk window overlapN path t2 ∧
    coreSpans 0 (legalChunk window overlapN path t1) =
      coreSpans 0 (legalChunk window overlapN path t2) ∧
    (legalChunk window overlapN path t1).length =
      (legalChunk window overlapN path t2).length ∧
    (legalChunk window overlapN path t1).map Chunk.index =
      List.range (legalChunk window overlapN path t1).length := by
  subst h
  refine ⟨rfl, rfl, rfl, ?_⟩
  unfold legalChunk
  rw [legalChunkAux_indices, List.range_eq_range', legalChunkAux_length]

/-- Witness for C7 at a concrete two-sentence text. -/
theorem C7_chunking_deterministic_witness :
    legalChunk 5 2 ["5.2"] (String.toList "Hello world. Bye.") =
      legalChunk 5 2 ["5.2"] (String.toList "Hello world. Bye.") ∧
    coreSpans 0 (legalChunk 5 2 ["5.2"] (String.toList "Hello world. Bye.")) =
      coreSpans 0 (legalChunk 5 2 ["5.2"] (String.toList "Hello world. Bye.")) ∧
    (legalChunk 5 2 ["5.2"] (String.toList "Hello world. Bye.")).length =
      (legalChunk 5 2 ["5.2"] (String.toList "Hello world. Bye.")).length ∧
    (legalChunk 5 2 ["5.2"] (String.toList "Hello world. Bye.")).map Chunk.index =
      List.range (legalChunk 5 2 ["5.2"] (String.toList "Hello world. Bye.")).length :=
  C7_chunking_deterministic 5 2 ["5.2"] _ _ rfl

/-! ## Spec-modelled core: ingestion pipeline and process_document (C5) -/

/-- Modelled from the spec: a Section row of the section 3 data model
(numbering label, title, character span in source text). -/
structure SectionRec where
  label : String
  title : String
  startPos : Nat
  stopPos : Nat
deriving Repr, DecidableEq

/-- Modelled from the spec: a Definition row — the defined term and the
index of the chunk that declares it. -/
structure DefinitionRec where
  term : List Char
  chunkIndex : Nat
deriving Repr, DecidableEq

/-- Modelled from the spec: an unresolved CrossReference row — the
source chunk index and the literal target label as written. -/
structure CrossRefRec where
  sourceIndex : Nat
  targetLabel : List Char
deriving Repr, DecidableEq

/-- Modelled from the spec: the Document row — lifecycle status,
extracted text (delivered by the excluded extraction collaborator),
recorded chunk count and error detail. -/
structure DocumentRec where
  status : DocStatus
  text : List Char
  chunkCount : Nat
  errorMsg : Option String
deriving Repr, DecidableEq

/-- The `ProcessingResult` record returned by `process_document`
(spec section 6). -/
structure ProcessingResult where
  status : DocStatus
  chunk_count : Nat
  error : Option String
deriving Repr, DecidableEq

/-- Modelled from the spec: the relational store rows owned by
documents — Sections, Chunks, Definitions and CrossReferences keyed by
document id (section 3 ownership). -/
structure IngestStore where
  docs : List (Nat × DocumentRec)
  sectionsTbl : List (Nat × List SectionRec)
  chunksTbl : List (Nat × List Chunk)
  defsTbl : List (Nat × List DefinitionRec)
  refsTbl : List (Nat × List CrossRefRec)
deriving Repr, DecidableEq

/-- Lookup by key in an association list (the relational store's
lookup-by-document-id). -/
def lookupAssoc {α : Type} (id : Nat) : List (Nat × α) → Option α
  | [] => none
  | (k, v) :: rest => if k = id then some v else lookupAssoc id rest

/-- Write-by-key in an association list, appending when absent. -/
def setAssoc {α : Type} (id : Nat) (v : α) : List (Nat × α) → List (Nat × α)
  | [] => [(id, v)]
  | (k, w) :: rest =>
      if k = id then (id, v) :: rest else (k, w) :: setAssoc id v rest

/-- Modelled from the spec: the Structure Parser's fail-soft path
(section 4.1) — a document with no detectable headings gets a single
synthetic root section spanning the whole text; empty text yields no
sections.  Heading detection, which none of the settled claims exercise,
is represented by this fail-soft branch. -/
def structureParse (text : List Char) : List SectionRec :=
  if text.isEmpty then [] else [⟨"root", "", 0, text.length⟩]

/-- Modelled from the spec: the Definition Extractor's pattern scan
(section 4.2) for quoted-term declarations of the form quote, term,
quote, then the word `means`. -/
def extractDefTermsAux (cur : Option (List Char)) : List Char → List (List Char)
  | [] => []
  | c :: rest =>
      match cur with
      | none =>
          if c = '"' then extractDefTermsAux (some []) rest
          else extractDefTermsAux none rest
      | some acc =>
          if c = '"' then
            if (" means".toList).isPrefixOf rest then
              acc.reverse :: extractDefTermsAux none rest
            else extractDefTermsAux none rest
          else extractDefTermsAux (some (c :: acc)) rest

/-- Defined terms declared in a piece of text. -/
def extractDefTerms (s : List Char) : List (List Char) :=
  extractDefTermsAux none s

/-- Modelled from the spec: the Cross-Reference Extractor's pattern scan
(section 4.3) for explicit `Section N` references, recording the literal
numbering label. -/
def extractRefLabelsAux : List Char → List (List Char)
  | [] => []
  | c :: rest =>
      if ("Section ".toList).isPrefixOf (c :: rest) then
        let after := (c :: rest).drop 8
        let label := after.takeWhile (fun ch => ch.isDigit || ch = '.')
        if label.isEmpty then extractRefLabelsAux rest
        else label :: extractRefLabelsAux rest
      else extractRefLabelsAux rest

/-- Section labels referenced in a piece of text. -/
def extractRefLabels (s : List Char) : List (List Char) :=
  extractRefLabelsAux s

/-- Definition rows of a chunk sequence: terms declared in each chunk,
attributed to the declaring chunk by index (section 4.2 "resolved after
chunking by offset containment"). -/
def definitionsOf (chunks : List Chunk) : List DefinitionRec :=
  chunks.flatMap (fun c =>
    (extractDefTerms (chunkFullText c)).map (fun t => ⟨t, c.index⟩))

/-- CrossReference rows of a chunk sequence: literal section labels
mentioned in each chunk, attributed to the source chunk by index. -/
def crossRefsOf (chunks : List Chunk) : List CrossRefRec :=
  chunks.flatMap (fun c =>
    (extractRefLabels (chunkFullText c)).map (fun t => ⟨c.index, t⟩))

/-- Modelled from the spec: `process_document(document_id)` (section 6)
— idempotent ingestion: an unknown id fails; an already-`ready` document
is a no-op returning the existing result; empty extracted text is the
fatal `ExtractionUnavailable` failure (section 7); otherwise the
pipeline parses, chunks, extracts definitions and cross-references,
stores them, and marks the document `ready`. -/
def processDocument (st : IngestStore) (docId : Nat) :
    IngestStore × ProcessingResult :=
  match lookupAssoc docId st.docs with
  | none => (st, ⟨.failed, 0, some "document not found"⟩)
  | some d =>
      if d.status = .ready then
        (st, ⟨.ready, d.chunkCount, none⟩)
      else if d.text.isEmpty then
        let d2 : DocumentRec :=
          { d with status := .failed, errorMsg := some "extraction unavailable" }
        ({ st with docs := setAssoc docId d2 st.docs },
         ⟨.failed, 0, some "extraction unavailable"⟩)
      else
        let secs := structureParse d.text
        let chunks := legalChunk 400 75 ["root"] d.text
        let defs := definitionsOf chunks
        let refs := crossRefsOf chunks
        let d2 : DocumentRec :=
          { d with status := .ready, chunkCount := chunks.length, errorMsg := none }
        ({ docs := setAssoc docId d2 st.docs,
           sectionsTbl := setAssoc docId secs st.sectionsTbl,
           chunksTbl := setAssoc docId chunks st.chunksTbl,
           defsTbl := setAssoc docId defs st.defsTbl,
           refsTbl := setAssoc docId refs st.refsTbl },
         ⟨.ready, chunks.length, none⟩)

theorem lookupAssoc_setAssoc_same {α : Type} (id : Nat) (v : α) :
    ∀ l : List (Nat × α), lookupAssoc id (setAssoc id v l) = some v := by
  intro l
  induction l with
  | nil => simp [setAssoc, lookupAssoc]
  | cons kv rest ih =>
    obtain ⟨k, w⟩ := kv
    by_cases hk : k = id
    · simp [setAssoc, lookupAssoc, hk]
    · simp [setAssoc, lookupAssoc, hk, ih]

/-- C5: `process_document` is idempotent — re-invoking it on a document
whose status is already `ready` leaves the whole store (the document and
its sections, chunks, definitions and cross-references) unchanged and
returns the recorded result; more generally, whenever an invocation
returns a `ready` result, invoking again from the resulting store
changes nothing and returns the same `ProcessingResult`. -/
theorem C5_process_document_idempotent :
    (∀ (st : IngestStore) (docId : Nat) (d : DocumentRec),
      lookupAssoc docId st.docs = some d → d.status = DocStatus.ready →
      processDocument st docId = (st, ⟨DocStatus.ready, d.chunkCount, none⟩)) ∧
    (∀ (st st1 : IngestStore) (docId : Nat) (r1 : ProcessingResult),
      processDocument st docId = (st1, r1) → r1.status = DocStatus.ready →
      processDocument st1 docId = (st1, r1)) := by
  have part1 : ∀ (st : IngestStore) (docId : Nat) (d : DocumentRec),
      lookupAssoc docId st.docs = some d → d.status = DocStatus.ready →
      processDocument st docId = (st, ⟨DocStatus.ready, d.chunkCount, none⟩) := by
    intro st docId d hfind hready
    unfold processDocument
    rw [hfind]
    simp [hready]
  refine ⟨part1, ?_⟩
  intro st st1 docId r1 hrun hready
  cases hfind : lookupAssoc docId st.docs with
  | none =>
    unfold processDocument at hrun
    rw [hfind] at hrun
    cases hrun
    cases hready
  | some d =>
    by_cases hst : d.status = DocStatus.ready
    · have hrun2 := part1 st docId d hfind hst
      rw [hrun2] at hrun
      cases hrun
      exact part1 st docId d hfind hst
    · by_cases htxt : d.text.isEmpty
      · unfold processDocument at hrun
        rw [hfind] at hrun
        simp only [hst, if_false, htxt, if_true] at hrun
        cases hrun
        cases hready
      · unfold processDocument at hrun
        rw [hfind] at hrun
        simp only [hst, if_false, htxt] at hrun
        cases hrun
        exact part1 _ docId
          ⟨DocStatus.ready, d.text, (legalChunk 400 75 ["root"] d.text).length, none⟩
          (lookupAssoc_setAssoc_same docId _ st.docs) rfl

/-- Witness for C5 at a concrete already-ready document. -/
theorem C5_process_document_idempotent_witness :
    processDocument
      ⟨[(1, ⟨DocStatus.ready, String.toList "Hello.", 2, none⟩)], [], [], [], []⟩ 1 =
      (⟨[(1, ⟨DocStatus.ready, String.toList "Hello.", 2, none⟩)], [], [], [], []⟩,
       ⟨DocStatus.ready, 2, none⟩) :=
  C5_process_document_idempotent.1
    ⟨[(1, ⟨DocStatus.ready, String.toList "Hello.", 2, none⟩)], [], [], [], []⟩ 1
    ⟨DocStatus.ready, String.toList "Hello.", 2, none⟩ rfl rfl

/-! ## Spec-modelled core: Retrieval Orchestrator rounds (C2) -/

/-- Adds each target chunk id to the bundle unless already present
(Round 2's "add them to the bundle if not already present"). -/
def addNewTargets (bundle : List Nat) (targets : List Nat) : List Nat :=
  targets.foldl (fun b t => if b.contains t then b else b ++ [t]) bundle

/-- Modelled from the spec: Round 2 of the Retrieval Orchestrator
(section 4.5) — for every chunk of the Round 1 working set `w`, look up
its outgoing resolved cross-references (`refsOf`, the CrossReference
index built at ingestion) and add the targets not already present.
References found within the newly added chunks are never looked up. -/
def round2Add (refsOf : Nat → List Nat) (w : List Nat) : List Nat :=
  w.foldl (fun bundle c => addNewTargets bundle (refsOf c)) w

/-- Round 2 instrumented with its external-call count: each Round 1
chunk costs exactly one reference-resolution call, whatever `refsOf`
returns. -/
def round2WithCalls (refsOf : Nat → List Nat) (w : List Nat) : List Nat × Nat :=
  w.foldl (fun acc c => (addNewTargets acc.1 (refsOf c), acc.2 + 1)) (w, 0)

/-- Modelled from the spec: Round 3 (definition-fetch) — fetch defining
chunks for cataloged terms occurring in the bundle gathered so far
(`defsFor` maps a bundle to the defining chunk ids of its term hits),
then hand over to aggregation.  Each round executes exactly once. -/
def orchestrate (refsOf : Nat → List Nat) (defsFor : List Nat → List Nat)
    (w : List Nat) : List Nat :=
  let b2 := round2Add refsOf w
  addNewTargets b2 (defsFor b2)

theorem addNewTargets_mem (targets : List Nat) :
    ∀ (bundle : List Nat) (x : Nat),
      x ∈ addNewTargets bundle targets ↔ x ∈ bundle ∨ x ∈ targets := by
  induction targets with
  | nil => intro bundle x; simp [addNewTargets]
  | cons t rest ih =>
    intro bundle x
    show x ∈ addNewTargets (if bundle.contains t then bundle else bundle ++ [t]) rest ↔ _
    by_cases hc : bundle.contains t
    · rw [if_pos hc, ih]
      have ht : t ∈ bundle := by simpa using hc
      constructor
      · rintro (h | h)
        · exact Or.inl h
        · exact Or.inr (List.mem_cons_of_mem t h)
      · rintro (h | h)
        · exact Or.inl h
        · rcases List.mem_cons.mp h with h | h
          · exact Or.inl (h ▸ ht)
          · exact Or.inr h
    · rw [if_neg hc, ih]
      simp only [List.mem_append, List.mem_singleton, List.mem_cons]
      tauto

theorem round2Add_mem (refsOf : Nat → List Nat) (w : List Nat) (x : Nat) :
    x ∈ round2Add refsOf w ↔ x ∈ w ∨ ∃ c ∈ w, x ∈ refsOf c := by
  have general : ∀ (l bundle : List Nat),
      x ∈ l.foldl (fun b c => addNewTargets b (refsOf c)) bundle ↔
        x ∈ bundle ∨ ∃ c ∈ l, x ∈ refsOf c := by
    intro l
    induction l with
    | nil => intro bundle; simp
    | cons c rest ih =>
      intro bundle
      show x ∈ rest.foldl _ (addNewTargets bundle (refsOf c)) ↔ _
      rw [ih, addNewTargets_mem]
      simp only [List.mem_cons]
      constructor
      · rintro ((h | h) | ⟨e, he, hx⟩)
        · exact Or.inl h
        · exact Or.inr ⟨c, Or.inl rfl, h⟩
        · exact Or.inr ⟨e, Or.inr he, hx⟩
      · rintro (h | ⟨e, (he | he), hx⟩)
        · exact Or.inl (Or.inl h)
        · exact Or.inl (Or.inr (he ▸ hx))
        · exact Or.inr ⟨e, he, hx⟩
  exact general w w

theorem round2WithCalls_spec (refsOf : Nat → List Nat) (w : List Nat) :
    round2WithCalls refsOf w = (round2Add refsOf w, w.length) := by
  have general : ∀ (l bundle : List Nat) (n : Nat),
      l.foldl (fun acc c => (addNewTargets acc.1 (refsOf c), acc.2 + 1)) (bundle, n) =
        (l.foldl (fun b c => addNewTargets b (refsOf c)) bundle, n + l.length) := by
    intro l
    induction l with
    | nil => intro bundle n; simp
    | cons c rest ih =>
      intro bundle n
      simp only [List.foldl_cons, ih, List.length_cons]
      congr 1
      omega
  unfold round2WithCalls round2Add
  rw [general]
  simp

/-- C2: Round 2 performs exactly one hop of reference following — a
chunk enters the Round 2 bundle iff it was in the Round 1 working set or
is a direct reference target of a Round 1 chunk, so a reference found
inside a chunk newly added in Round 2 is never fetched in the same query
(unless it was independently reachable in one hop); and the number of
reference-resolution calls of Round 2 equals the Round 1 working-set
size, a bound independent of the length of reference chains, so total
external calls per query are bounded by a constant once the working set
is capped. -/
theorem C2_round2_single_hop (refsOf : Nat → List Nat)
    (defsFor : List Nat → List Nat) (w : List Nat) :
    (∀ x, x ∈ round2Add refsOf w ↔ x ∈ w ∨ ∃ c ∈ w, x ∈ refsOf c) ∧
    (∀ x y, x ∈ round2Add refsOf w → x ∉ w → y ∈ refsOf x → y ∉ w →
      (∀ c ∈ w, y ∉ refsOf c) → y ∉ round2Add refsOf w) ∧
    (∀ x, x ∈ orchestrate refsOf defsFor w →
      x ∈ w ∨ (∃ c ∈ w, x ∈ refsOf c) ∨ x ∈ defsFor (round2Add refsOf w)) ∧
    (round2WithCalls refsOf w).2 = w.length ∧
    (∀ bound : Nat, w.length ≤ bound → (round2WithCalls refsOf w).2 ≤ bound) := by
  refine ⟨round2Add_mem refsOf w, ?_, ?_, ?_, ?_⟩
  · intro x y _ _ _ hynw hnoc hyin
    rcases (round2Add_mem refsOf w y).mp hyin with h | ⟨c, hc, hy⟩
    · exact hynw h
    · exact hnoc c hc hy
  · intro x hx
    unfold orchestrate at hx
    rcases (addNewTargets_mem _ _ x).mp hx with h | h
    · rcases (round2Add_mem refsOf w x).mp h with h | h
      · exact Or.inl h
      · exact Or.inr (Or.inl h)
    · exact Or.inr (Or.inr h)
  · rw [round2WithCalls_spec]
  · intro bound hb
    rw [round2WithCalls_spec]
    exact hb

/-- Witness for C2 on a three-chunk reference chain 1 to 2 to 3 with
working set containing only chunk 1: chunk 2 is added, chunk 3 (two hops
away) is not, and Round 2 makes exactly one external call. -/
theorem C2_round2_single_hop_witness :
    (2 ∈ round2Add (fun n => if n = 1 then [2] else if n = 2 then [3] else []) [1] ∨
      (2 : Nat) ∈ [1] ∨ False) ∧
    (3 : Nat) ∉ round2Add (fun n => if n = 1 then [2] else if n = 2 then [3] else []) [1] ∧
    (round2WithCalls (fun n => if n = 1 then [2] else if n = 2 then [3] else []) [1]).2 ≤ 1 := by
  refine ⟨Or.inl ?_, ?_, ?_⟩
  · exact (C2_round2_single_hop _ (fun _ => []) [1]).1 2 |>.mpr
      (Or.inr ⟨1, by decide, by decide⟩)
  · exact (C2_round2_single_hop _ (fun _ => []) [1]).2.1 2 3
      ((C2_round2_single_hop _ (fun _ => []) [1]).1 2 |>.mpr
        (Or.inr ⟨1, by decide, by decide⟩))
      (by decide) (by decide) (by decide) (by decide)
  · exact (C2_round2_single_hop _ (fun _ => []) [1]).2.2.2.2 1 (by decide)

/-! ## Spec-modelled core: Citation Tracker (C3) -/

/-- A citation marker parsed out of generator output: the 1-based bundle
position it references and the character offsets of the marker text. -/
structure Marker where
  num : Nat
  startOff : Nat
  stopOff : Nat
deriving Repr, DecidableEq

/-- A citation produced by the tracker: the marker's referenced bundle
position and offsets, the originating chunk id when the marker resolves,
and the unresolved flag raised when it does not. -/
structure CitationOut where
  markerNum : Nat
  startOff : Nat
  stopOff : Nat
  resolvedChunk : Option Nat
  unresolved : Bool
deriving Repr, DecidableEq

/-- Numeric value of a digit run. -/
def digitsToNat (ds : List Char) : Nat :=
  ds.foldl (fun n c => 10 * n + (c.toNat - '0'.toNat)) 0

/-- Modelled from the spec: the Citation Tracker's marker scan (section
4.8) — generator output references bundle positions with bracketed
1-based markers such as `[2]`; the scan records each marker's number and
character offsets. -/
def extractMarkersAux (pos : Nat) : List Char → List Marker
  | [] => []
  | c :: rest =>
      if c = '[' then
        let ds := rest.takeWhile Char.isDigit
        if !ds.isEmpty && ((rest.drop ds.length).head? == some ']') then
          ⟨digitsToNat ds, pos, pos + ds.length + 2⟩ :: extractMarkersAux (pos + 1) rest
        else extractMarkersAux (pos + 1) rest
      else extractMarkersAux (pos + 1) rest

/-- All citation markers of a generator output. -/
def extractMarkers (output : List Char) : List Marker :=
  extractMarkersAux 0 output

/-- Modelled from the spec: citation resolution (section 4.8) — every
marker is mapped to the chunk id at its referenced bundle position, and
a marker whose position is not present in the bundle is flagged
unresolved rather than dropped. -/
def resolveCitations (bundle : List Nat) (output : List Char) : List CitationOut :=
  (extractMarkers output).map (fun m =>
    match bundle.get? (m.num - 1) with
    | some cid => ⟨m.num, m.startOff, m.stopOff, some cid, false⟩
    | none => ⟨m.num, m.startOff, m.stopOff, none, true⟩)

/-- C3: the tracker emits exactly one citation per marker (no marker is
ever dropped); a marker that does not resolve to a bundle position is
reported as unresolved; a marker that resolves maps to its originating
chunk id and keeps its character offsets; and the unresolved flag is
raised exactly on the citations with no resolved chunk. -/
theorem C3_citation_resolution (bundle : List Nat) (output : List Char) :
    (resolveCitations bundle output).length = (extractMarkers output).length ∧
    (∀ m ∈ extractMarkers output, bundle.get? (m.num - 1) = none →
      (⟨m.num, m.startOff, m.stopOff, none, true⟩ : CitationOut) ∈
        resolveCitations bundle output) ∧
    (∀ m ∈ extractMarkers output, ∀ cid, bundle.get? (m.num - 1) = some cid →
      (⟨m.num, m.startOff, m.stopOff, some cid, false⟩ : CitationOut) ∈
        resolveCitations bundle output) ∧
    (∀ c ∈ resolveCitations bundle output,
      (c.unresolved = true ↔ c.resolvedChunk = none)) := by
  refine ⟨List.length_map _ _, ?_, ?_, ?_⟩
  · intro m hm hnone
    rw [resolveCitations, List.mem_map]
    exact ⟨m, hm, by rw [hnone]⟩
  · intro m hm cid hsome
    rw [resolveCitations, List.mem_map]
    exact ⟨m, hm, by rw [hsome]⟩
  · intro c hc
    rw [resolveCitations, List.mem_map] at hc
    obtain ⟨m, _, hmc⟩ := hc
    cases hg : bundle.get? (m.num - 1) with
    | some cid =>
      rw [hg] at hmc
      rw [← hmc]
      simp
    | none =>
      rw [hg] at hmc
      rw [← hmc]
      simp

/-- Witness for C3: output `see [1] and [3].` against a two-chunk
bundle — marker `[3]` is reported unresolved, marker `[1]` resolves to
chunk id 10 with its offsets. -/
theorem C3_citation_resolution_witness :
    (⟨3, 12, 15, none, true⟩ : CitationOut) ∈
      resolveCitations [10, 20] (String.toList "see [1] and [3].") ∧
    (⟨1, 4, 7, some 10, false⟩ : CitationOut) ∈
      resolveCitations [10, 20] (String.toList "see [1] and [3].") :=
  ⟨(C3_citation_resolution [10, 20] (String.toList "see [1] and [3].")).2.1
      ⟨3, 12, 15⟩ (by decide) (by decide),
   (C3_citation_resolution [10, 20] (String.toList "see [1] and [3].")).2.2.1
      ⟨1, 4, 7⟩ (by decide) 10 (by decide)⟩

/-! ## Spec-modelled core: Context Aggregator budget enforcement (C6) -/

/-- Modelled from the spec: a bundle entry as seen by the Context
Aggregator — chunk id, contributing round (1, 2 or 3), combined score
(scaled to an integer) and token count. -/
structure BChunk where
  cid : Nat
  round : Nat
  score : Nat
  tokens : Nat
deriving Repr, DecidableEq

/-- Total token count of a bundle. -/
def totalTokens (l : List BChunk) : Nat :=
  (l.map BChunk.tokens).sum

/-- `d` is the sole source of a resolved reference or definition
actually used by some other chunk still kept: `needs c.cid` lists the
chunk ids that are sole sources for chunk `c`. -/
def soleSourceNeeded (needs : Nat → List Nat) (kept : List BChunk)
    (d : BChunk) : Bool :=
  kept.any (fun c => (c.cid != d.cid) && (needs c.cid).contains d.cid)

/-- Inserts a chunk into a score-ascending list, keeping it sorted. -/
def insertAsc (c : BChunk) : List BChunk → List BChunk
  | [] => [c]
  | d :: rest =>
      if c.score ≤ d.score then c :: d :: rest else d :: insertAsc c rest

/-- Sorts a chunk list by ascending combined score (insertion sort), so
the lowest-scored Round 1 chunks are considered for dropping first. -/
def sortAsc : List BChunk → List BChunk
  | [] => []
  | c :: rest => insertAsc c (sortAsc rest)

/-- Modelled from the spec: the drop loop of budget enforcement (section
4.6) — walk the Round 1 chunks in ascending score order; once the
remaining bundle fits the budget, keep everything left; otherwise drop
the current candidate unless it is the sole source of a reference or
definition used by a chunk still retained.  `others` holds the Round 2/3
chunks (never dropped), `keptAcc` the already-retained candidates in
reverse. -/
def enforceBudgetAux (needs : Nat → List Nat) (budget : Nat)
    (others keptAcc : List BChunk) : List BChunk → List BChunk × List BChunk
  | [] => (keptAcc.reverse, [])
  | c :: rest =>
      if totalTokens (others ++ keptAcc ++ (c :: rest)) ≤ budget then
        (keptAcc.reverse ++ c :: rest, [])
      else if soleSourceNeeded needs (others ++ keptAcc ++ rest) c then
        enforceBudgetAux needs budget others (c :: keptAcc) rest
      else
        let r := enforceBudgetAux needs budget others keptAcc rest
        (r.1, c :: r.2)

/-- Modelled from the spec: budget enforcement of the Context Aggregator
— when the bundle exceeds the token budget, drop lowest-scored Round 1
chunks first, never dropping a chunk that is the sole source of a
resolved reference or definition used by a kept chunk; Round 2 and
Round 3 chunks are never dropped.  Returns (kept, dropped). -/
def enforceBudget (needs : Nat → List Nat) (budget : Nat)
    (bundle : List BChunk) : List BChunk × List BChunk :=
  let r1 := bundle.filter (fun c => c.round == 1)
  let others := bundle.filter (fun c => !(c.round == 1))
  let r := enforceBudgetAux needs budget others [] (sortAsc r1)
  (others ++ r.1, r.2)

theorem mem_insertAsc (c x : BChunk) :
    ∀ l, x ∈ insertAsc c l ↔ x = c ∨ x ∈ l := by
  intro l
  induction l with
  | nil => simp [insertAsc]
  | cons d rest ih =>
    by_cases h : c.score ≤ d.score
    · simp [insertAsc, h]
    · simp only [insertAsc, h, if_false, List.mem_cons, ih]
      tauto

theorem mem_sortAsc (x : BChunk) : ∀ l, x ∈ sortAsc l ↔ x ∈ l := by
  intro l
  induction l with
  | nil => simp [sortAsc]
  | cons c rest ih =>
    simp [sortAsc, mem_insertAsc, ih]

theorem pairwise_insertAsc (c : BChunk) :
    ∀ l, List.Pairwise (fun a b : BChunk => a.score ≤ b.score) l →
      List.Pairwise (fun a b : BChunk => a.score ≤ b.score) (insertAsc c l) := by
  intro l
  induction l with
  | nil => intro _; simp [insertAsc]
  | cons d rest ih =>
    intro hp
    rw [List.pairwise_cons] at hp
    obtain ⟨hd, hrest⟩ := hp
    by_cases h : c.score ≤ d.score
    · rw [insertAsc, if_pos h, List.pairwise_cons]
      refine ⟨?_, List.pairwise_cons.mpr ⟨hd, hrest⟩⟩
      intro x hx
      rcases List.mem_cons.mp hx with hx | hx
      · rw [hx]; exact h
      · exact le_trans h (hd x hx)
    · rw [insertAsc, if_neg h, List.pairwise_cons]
      refine ⟨?_, ih hrest⟩
      intro x hx
      rcases (mem_insertAsc c x rest).mp hx with hx | hx
      · rw [hx]; exact le_of_not_le h
      · exact hd x hx

theorem pairwise_sortAsc :
    ∀ l, List.Pairwise (fun a b : BChunk => a.score ≤ b.score) (sortAsc l) := by
  intro l
  induction l with
  | nil => simp [sortAsc]
  | cons c rest ih => exact pairwise_insertAsc c (sortAsc rest) ih

theorem soleSourceNeeded_subset (needs : Nat → List Nat) (d : BChunk)
    (l1 l2 : List BChunk) (hsub : ∀ x ∈ l1, x ∈ l2)
    (h : soleSourceNeeded needs l2 d = false) :
    soleSourceNeeded needs l1 d = false := by
  rw [soleSourceNeeded, List.any_eq_false]
  rw [soleSourceNeeded, List.any_eq_false] at h
  intro x hx
  exact h x (hsub x hx)

theorem enforceBudgetAux_spec (needs : Nat → List Nat) (budget : Nat)
    (others : List BChunk) :
    ∀ (cands keptAcc : List BChunk),
      (enforceBudgetAux needs budget others keptAcc cands).2.Sublist cands ∧
      (∀ x ∈ (enforceBudgetAux needs budget others keptAcc cands).1,
        x ∈ keptAcc ∨ x ∈ cands) ∧
      (∀ d ∈ (enforceBudgetAux needs budget others keptAcc cands).2,
        soleSourceNeeded needs
          (others ++ (enforceBudgetAux needs budget others keptAcc cands).1) d = false) ∧
      (enforceBudgetAux needs budget others keptAcc cands).1.length +
        (enforceBudgetAux needs budget others keptAcc cands).2.length =
        keptAcc.length + cands.length := by
  intro cands
  induction cands with
  | nil =>
    intro keptAcc
    refine ⟨List.Sublist.refl _, ?_, ?_, ?_⟩
    · intro x hx
      exact Or.inl (List.mem_reverse.mp hx)
    · intro d hd; cases hd
    · simp [enforceBudgetAux]
  | cons c rest ih =>
    intro keptAcc
    by_cases hb : totalTokens (others ++ keptAcc ++ (c :: rest)) ≤ budget
    · have he : enforceBudgetAux needs budget others keptAcc (c :: rest) =
          (keptAcc.reverse ++ c :: rest, []) := by
        rw [enforceBudgetAux, if_pos hb]
      rw [he]
      refine ⟨List.nil_sublist _, ?_, ?_, ?_⟩
      · intro x hx
        rcases List.mem_append.mp hx with h | h
        · exact Or.inl (List.mem_reverse.mp h)
        · exact Or.inr h
      · intro d hd; cases hd
      · simp
    · by_cases hs : soleSourceNeeded needs (others ++ keptAcc ++ rest) c = true
      · have he : enforceBudgetAux needs budget others keptAcc (c :: rest) =
            enforceBudgetAux needs budget others (c :: keptAcc) rest := by
          rw [enforceBudgetAux, if_neg hb, if_pos hs]
        rw [he]
        obtain ⟨i1, i2, i3, i4⟩ := ih (c :: keptAcc)
        refine ⟨i1.trans (List.sublist_cons_self c rest), ?_, i3, ?_⟩
        · intro x hx
          rcases i2 x hx with h | h
          · rcases List.mem_cons.mp h with h | h
            · exact Or.inr (List.mem_cons.mpr (Or.inl h))
            · exact Or.inl h
          · exact Or.inr (List.mem_cons.mpr (Or.inr h))
        · rw [i4]; simp; omega
      · have he : enforceBudgetAux needs budget others keptAcc (c :: rest) =
            ((enforceBudgetAux needs budget others keptAcc rest).1,
             c :: (enforceBudgetAux needs budget others keptAcc rest).2) := by
          rw [enforceBudgetAux, if_neg hb, if_neg hs]
        rw [he]
        obtain ⟨i1, i2, i3, i4⟩ := ih keptAcc
        refine ⟨List.Sublist.cons₂ c i1, ?_, ?_, ?_⟩
        · intro x hx
          rcases i2 x hx with h | h
          · exact Or.inl h
          · exact Or.inr (List.mem_cons.mpr (Or.inr h))
        · intro d hd
          rcases List.mem_cons.mp hd with h | h
          · subst h
            refine soleSourceNeeded_subset needs d _ _ ?_ (by simpa using hs)
            intro x hx
            rcases List.mem_append.mp hx with h | h
            · exact List.mem_append.mpr (Or.inl h)
            · rcases i2 x h with h | h
              · exact List.mem_append.mpr (Or.inr (List.mem_append.mpr (Or.inl h)))
              · exact List.mem_append.mpr (Or.inr (List.mem_append.mpr (Or.inr h)))
          · exact i3 d h
        · simp only [List.length_cons]
          omega

/-- C6: when a context bundle exceeds the token budget, budget
enforcement removes only Round 1 chunks; the dropped chunks appear in
ascending order of combined score; no dropped chunk is the sole source
of a resolved reference or definition used by a chunk still kept; every
non-Round-1 chunk of the bundle is kept; and no chunk is lost — kept and
dropped together account for the whole bundle. -/
theorem C6_budget_enforcement (needs : Nat → List Nat) (budget : Nat)
    (bundle : List BChunk) (_hover : totalTokens bundle > budget) :
    (∀ d ∈ (enforceBudget needs budget bundle).2, d.round = 1) ∧
    List.Pairwise (fun a b : BChunk => a.score ≤ b.score)
      (enforceBudget needs budget bundle).2 ∧
    (∀ d ∈ (enforceBudget needs budget bundle).2,
      soleSourceNeeded needs (enforceBudget needs budget bundle).1 d = false) ∧
    (∀ c ∈ bundle, c.round ≠ 1 → c ∈ (enforceBudget needs budget bundle).1) ∧
    (enforceBudget needs budget bundle).1.length +
      (enforceBudget needs budget bundle).2.length = bundle.length := by
  obtain ⟨i1, i2, i3, i4⟩ := enforceBudgetAux_spec needs budget
    (bundle.filter (fun c => !(c.round == 1)))
    (sortAsc (bundle.filter (fun c => c.round == 1))) []
  have hdropped : ∀ d ∈ (enforceBudget needs budget bundle).2,
      d ∈ bundle.filter (fun c => c.round == 1) := by
    intro d hd
    have : d ∈ sortAsc (bundle.filter (fun c => c.round == 1)) :=
      i1.mem hd
    exact (mem_sortAsc d _).mp this
  refine ⟨?_, ?_, ?_, ?_, ?_⟩
  · intro d hd
    have := List.mem_filter.mp (hdropped d hd)
    simpa using this.2
  · exact List.Pairwise.sublist i1 (pairwise_sortAsc _)
  · intro d hd
    exact i3 d hd
  · intro c hc hr
    refine List.mem_append.mpr (Or.inl ?_)
    rw [List.mem_filter]
    exact ⟨hc, by simpa using hr⟩
  · have hperm : List.Perm ((bundle.filter (fun c => c.round == 1)) ++
        (bundle.filter (fun c => !(c.round == 1)))) bundle := by
      simpa using List.filter_append_perm (fun c => c.round == 1) bundle
    have hlen : (bundle.filter (fun c => c.round == 1)).length +
        (bundle.filter (fun c => !(c.round == 1))).length = bundle.length := by
      have := hperm.length_eq
      simpa [List.length_append] using this
    have hsort : (sortAsc (bundle.filter (fun c => c.round == 1))).length =
        (bundle.filter (fun c => c.round == 1)).length := by
      clear hlen hperm i4 i3 i2 i1 hdropped _hover
      induction (bundle.filter (fun c => c.round == 1)) with
      | nil => rfl
      | cons c rest ih =>
        have hins : ∀ l, (insertAsc c l).length = l.length + 1 := by
          intro l
          induction l with
          | nil => rfl
          | cons d tail iht =>
            by_cases h : c.score ≤ d.score
            · simp [insertAsc, h]
            · simp [insertAsc, h, iht]
        simp [sortAsc, hins, ih]
    simp only [List.length_nil, Nat.zero_add] at i4
    simp only [enforceBudget, List.length_append]
    omega

/-- Witness for C6: a three-chunk bundle 50 tokens over a budget of 100,
where the low-scored Round 1 chunk with id 3 is the sole source needed
by the Round 2 chunk with id 5 — enforcement drops only the Round 1
chunk with id 4 and the stated properties hold. -/
theorem C6_budget_enforcement_witness :
    (∀ d ∈ (enforceBudget (fun n => if n = 5 then [3] else []) 100
        [⟨3, 1, 10, 50⟩, ⟨4, 1, 20, 50⟩, ⟨5, 2, 0, 50⟩]).2, d.round = 1) ∧
    List.Pairwise (fun a b : BChunk => a.score ≤ b.score)
      (enforceBudget (fun n => if n = 5 then [3] else []) 100
        [⟨3, 1, 10, 50⟩, ⟨4, 1, 20, 50⟩, ⟨5, 2, 0, 50⟩]).2 ∧
    (∀ d ∈ (enforceBudget (fun n => if n = 5 then [3] else []) 100
        [⟨3, 1, 10, 50⟩, ⟨4, 1, 20, 50⟩, ⟨5, 2, 0, 50⟩]).2,
      soleSourceNeeded (fun n => if n = 5 then [3] else [])
        (enforceBudget (fun n => if n = 5 then [3] else []) 100
          [⟨3, 1, 10, 50⟩, ⟨4, 1, 20, 50⟩, ⟨5, 2, 0, 50⟩]).1 d = false) ∧
    (∀ c ∈ [(⟨3, 1, 10, 50⟩ : BChunk), ⟨4, 1, 20, 50⟩, ⟨5, 2, 0, 50⟩],
      c.round ≠ 1 → c ∈ (enforceBudget (fun n => if n = 5 then [3] else []) 100
        [⟨3, 1, 10, 50⟩, ⟨4, 1, 20, 50⟩, ⟨5, 2, 0, 50⟩]).1) ∧
    (enforceBudget (fun n => if n = 5 then [3] else []) 100
        [⟨3, 1, 10, 50⟩, ⟨4, 1, 20, 50⟩, ⟨5, 2, 0, 50⟩]).1.length +
      (enforceBudget (fun n => if n = 5 then [3] else []) 100
        [⟨3, 1, 10, 50⟩, ⟨4, 1, 20, 50⟩, ⟨5, 2, 0, 50⟩]).2.length = 3 :=
  C6_budget_enforcement (fun n => if n = 5 then [3] else []) 100
    [⟨3, 1, 10, 50⟩, ⟨4, 1, 20, 50⟩, ⟨5, 2, 0, 50⟩] (by decide)

end LegalAI
